import Mathlib

/-!
Verification of the attendance-ledger kernel of the college-companion app:
the `push`/`pop`/`percent`/`canSkip` functions of the attendance screen and
the closed-form `getBunkable` of a sibling revision.

Modelling conventions:
* JavaScript numbers are modelled as exact integers (`ℤ`) for the counters
  and weights, and exact rationals (`ℚ`) wherever the source performs real
  division (`percent`, the loop guard of `canSkip`, `getBunkable`);
  `Math.round` is the Mathlib `round` (floor of x + 1/2, i.e. round half up)
  and `Math.floor` is `Int.floor`.
* The unbounded `while (true)` loop of `canSkip` is modelled with explicit
  fuel: `canSkipLoop` returns `none` when the fuel runs out, so termination
  of the source loop is the existence of a fuel making the result `some`,
  and nontermination is the result being `none` at every fuel.
-/

namespace CollegeCompanion

/-- The `Action` union type of the attendance screen. -/
inductive Action where
  | ATTENDED
  | MISSED
  | ATTENDED_LAB
  | MISSED_LAB
  | CLASS_CANCELLED
  | LAB_CANCELLED
deriving DecidableEq, Repr

/-- The `Subject` record: id, name, the two counters and the action history. -/
structure Subject where
  id : String
  name : String
  attended : ℤ
  missed : ℤ
  history : List Action
deriving DecidableEq, Repr

/-- `push(s, action, a = 0, m = 0)`: add the weights to the counters and
append the action to the history. -/
def push (s : Subject) (action : Action) (a m : ℤ) : Subject :=
  { s with
    attended := s.attended + a
    missed := s.missed + m
    history := s.history ++ [action] }

/-- The attended weight the screen passes to `push` for each action
(`push(s, ATTENDED, 1)`, `push(s, ATTENDED_LAB, 2)`, otherwise 0). -/
def attendedWeight : Action → ℤ
  | Action.ATTENDED => 1
  | Action.ATTENDED_LAB => 2
  | _ => 0

/-- The missed weight the screen passes to `push` for each action
(`push(s, MISSED, 0, 1)`, `push(s, MISSED_LAB, 0, 2)`, otherwise 0). -/
def missedWeight : Action → ℤ
  | Action.MISSED => 1
  | Action.MISSED_LAB => 2
  | _ => 0

/-- `pop(s)`: if the history is empty return `s` unchanged; otherwise undo
counter effect of the last action (clamping each counter at 0 with
`Math.max`) and drop the last history entry. -/
def pop (s : Subject) : Subject :=
  match s.history.getLast? with
  | none => s
  | some last =>
    let attended : ℤ :=
      match last with
      | Action.ATTENDED => s.attended - 1
      | Action.ATTENDED_LAB => s.attended - 2
      | _ => s.attended
    let missed : ℤ :=
      match last with
      | Action.MISSED => s.missed - 1
      | Action.MISSED_LAB => s.missed - 2
      | _ => s.missed
    { s with
      attended := max 0 attended
      missed := max 0 missed
      history := s.history.dropLast }

/-- `percent(s)`: 100 when there are no recorded classes, otherwise
`Math.round((attended / total) * 100)` computed in exact arithmetic. -/
def percent (s : Subject) : ℤ :=
  let total : ℤ := s.attended + s.missed
  if total = 0 then 100
  else round (((s.attended : ℚ) / (total : ℚ)) * 100)

/-- The body of the `while (true)` loop of `canSkip`, with explicit fuel.
Each call checks `(a / total) * 100 < min` with `total = a + m + 1`
(in exact rational arithmetic); on break it returns the current `m`,
otherwise it recurses on `m + 1`. `none` means the fuel ran out. -/
def canSkipLoop (a min : ℤ) : ℕ → ℤ → Option ℤ
  | 0, _ => none
  | fuel + 1, m =>
    let total : ℤ := a + m + 1
    if ((a : ℚ) / (total : ℚ)) * 100 < (min : ℚ) then some m
    else canSkipLoop a min fuel (m + 1)

/-- `canSkip(s, min)`: run the loop from `m = s.missed` and return
`m - s.missed`. The fuel `100 * attended + 2` is enough for every
non-negative ledger and positive `min` (proved below), so `none` only
occurs where the source loop would not terminate within that budget. -/
def canSkip (s : Subject) (min : ℤ) : Option ℤ :=
  (canSkipLoop s.attended min (100 * s.attended.toNat + 2) s.missed).map
    (fun m => m - s.missed)

/-- `getBunkable(attended, missed, target)` from the sibling revision:
10 when `total == 0`, otherwise
`Math.max(0, Math.floor(attended * 100 / target - total))`
computed in exact arithmetic. -/
def getBunkable (attended missed target : ℤ) : ℤ :=
  let total : ℤ := attended + missed
  if total = 0 then 10
  else
    let maxTotal : ℚ := ((attended : ℚ) * 100) / (target : ℚ)
    let bunkable : ℤ := ⌊maxTotal - (total : ℚ)⌋
    max 0 bunkable

/-- The seven user gestures of the screen, each a `push` with the weights
of its call site, or an undo (`pop`). -/
inductive UserOp where
  | attend
  | miss
  | attendLab
  | missLab
  | classCancelled
  | labCancelled
  | undo
deriving DecidableEq, Repr

/-- Dispatch one user gesture to `push`/`pop` exactly as the screen does. -/
def applyUserOp (s : Subject) : UserOp → Subject
  | UserOp.attend => push s Action.ATTENDED 1 0
  | UserOp.miss => push s Action.MISSED 0 1
  | UserOp.attendLab => push s Action.ATTENDED_LAB 2 0
  | UserOp.missLab => push s Action.MISSED_LAB 0 2
  | UserOp.classCancelled => push s Action.CLASS_CANCELLED 0 0
  | UserOp.labCancelled => push s Action.LAB_CANCELLED 0 0
  | UserOp.undo => pop s

/-- Apply a sequence of user gestures in order. -/
def applyUserOps (s : Subject) (ops : List UserOp) : Subject :=
  ops.foldl applyUserOp s

/-- Apply `n` MISSED actions (the weights of the `+ Missed` button). -/
def applyMissedN : ℕ → Subject → Subject
  | 0, s => s
  | n + 1, s => applyMissedN n (push s Action.MISSED 0 1)

/-- A raw kernel call: a `push` with arbitrary weights, or a `pop`. -/
inductive KernelOp where
  | doPush (a : Action) (wa wm : ℤ)
  | doPop
deriving DecidableEq, Repr

/-- Run one raw kernel call. -/
def applyKernelOp (s : Subject) : KernelOp → Subject
  | KernelOp.doPush a wa wm => push s a wa wm
  | KernelOp.doPop => pop s

/-- Run a sequence of raw kernel calls in order. -/
def applyKernelOps (s : Subject) (ops : List KernelOp) : Subject :=
  ops.foldl applyKernelOp s

/-- A kernel call adds non-negative weights (every `pop` qualifies). -/
def KernelOp.nonnegWeights : KernelOp → Bool
  | KernelOp.doPush _ wa wm => decide (0 ≤ wa) && decide (0 ≤ wm)
  | KernelOp.doPop => true

/-- The exact (unrounded) running attendance percentage
`(attended / total) * 100` that the loop guard of `canSkip` tests. -/
def exactRatio (s : Subject) : ℚ :=
  ((s.attended : ℚ) / ((s.attended + s.missed : ℤ) : ℚ)) * 100

/-! ## Helper lemmas -/

lemma applyMissedN_attended (n : ℕ) (s : Subject) :
    (applyMissedN n s).attended = s.attended := by
  induction n generalizing s with
  | zero => rfl
  | succ n ih => simp [applyMissedN, ih, push]

lemma applyMissedN_missed (n : ℕ) (s : Subject) :
    (applyMissedN n s).missed = s.missed + n := by
  induction n generalizing s with
  | zero => simp [applyMissedN]
  | succ n ih => simp [applyMissedN, ih, push]; ring

lemma pop_id (s : Subject) : (pop s).id = s.id := by
  unfold pop
  cases s.history.getLast? <;> simp

lemma pop_name (s : Subject) : (pop s).name = s.name := by
  unfold pop
  cases s.history.getLast? <;> simp

lemma pop_history (s : Subject) : (pop s).history = s.history.dropLast := by
  unfold pop
  cases h : s.history.getLast? with
  | none =>
    rw [List.getLast?_eq_none_iff] at h
    simp [h]
  | some a => simp

lemma pop_attended_nonneg (s : Subject) (ha : 0 ≤ s.attended) :
    0 ≤ (pop s).attended := by
  unfold pop
  cases s.history.getLast? with
  | none => exact ha
  | some a => simp

lemma pop_missed_nonneg (s : Subject) (hm : 0 ≤ s.missed) :
    0 ≤ (pop s).missed := by
  unfold pop
  cases s.history.getLast? with
  | none => exact hm
  | some a => simp

/-! ## Claim theorems -/

/-- Claim C3: for every subject with non-negative counters and every action
pushed with its screen weights, `pop` exactly undoes `push`: the subtraction
never needs the zero clamp, so `pop (push s a wa wm) = s` field for field. -/
theorem pop_push_inverse (s : Subject) (a : Action)
    (ha : 0 ≤ s.attended) (hm : 0 ≤ s.missed) :
    pop (push s a (attendedWeight a) (missedWeight a)) = s := by
  obtain ⟨id, name, att, mis, hist⟩ := s
  simp only [push] at *
  cases a <;>
    simp [pop, attendedWeight, missedWeight, List.getLast?_concat,
      List.dropLast_concat] <;>
    omega

/-- Witness for C3 at a concrete subject and action. -/
theorem pop_push_inverse_witness :
    pop (push ⟨"s1", "Maths", 3, 1, [Action.ATTENDED]⟩ Action.MISSED
        (attendedWeight Action.MISSED) (missedWeight Action.MISSED)) =
      ⟨"s1", "Maths", 3, 1, [Action.ATTENDED]⟩ :=
  pop_push_inverse ⟨"s1", "Maths", 3, 1, [Action.ATTENDED]⟩ Action.MISSED
    (by norm_num) (by norm_num)

/-- Claim C6: on an empty history `pop` is a no-op, returning the subject
with all fields unchanged. -/
theorem pop_empty_noop (s : Subject) (h : s.history = []) : pop s = s := by
  unfold pop
  rw [List.getLast?_eq_none_iff.mpr h]

/-- Witness for C6 at a concrete subject. -/
theorem pop_empty_noop_witness :
    pop ⟨"s2", "Physics", 2, 3, []⟩ = ⟨"s2", "Physics", 2, 3, []⟩ :=
  pop_empty_noop ⟨"s2", "Physics", 2, 3, []⟩ rfl

/-- Claim C7: `getBunkable` returns the fixed constant 10 whenever
`attended + missed = 0`, for every target in (0, 100]. -/
theorem getBunkable_empty_constant (a m t : ℤ) (h : a + m = 0)
    (ht0 : 0 < t) (ht100 : t ≤ 100) : getBunkable a m t = 10 := by
  simp [getBunkable, h]

/-- Witness for C7 at the empty ledger and target 75. -/
theorem getBunkable_empty_constant_witness : getBunkable 0 0 75 = 10 :=
  getBunkable_empty_constant 0 0 75 rfl (by norm_num) (by norm_num)

/-- Claim C8: `push` appends to the end of the history and `pop` removes the
last entry; applying ATTENDED, MISSED, ATTENDED_LAB in order to the empty
ledger yields that exact history, and `pop` then removes ATTENDED_LAB. -/
theorem history_append_order :
    (∀ (s : Subject) (a : Action) (wa wm : ℤ),
      (push s a wa wm).history = s.history ++ [a]) ∧
    (∀ s : Subject, (pop s).history = s.history.dropLast) ∧
    (applyUserOps ⟨"s", "n", 0, 0, []⟩
        [UserOp.attend, UserOp.miss, UserOp.attendLab]).history =
      [Action.ATTENDED, Action.MISSED, Action.ATTENDED_LAB] ∧
    (pop (applyUserOps ⟨"s", "n", 0, 0, []⟩
        [UserOp.attend, UserOp.miss, UserOp.attendLab])).history =
      [Action.ATTENDED, Action.MISSED] := by
  refine ⟨fun s a wa wm => rfl, pop_history, ?_, ?_⟩ <;>
    simp [applyUserOps, applyUserOp, push, pop_history]

/-- Claim C10: `push` and `pop` leave the `id` and `name` fields of the
subject unchanged, for every input subject, action and weights. -/
theorem push_pop_frame :
    (∀ (s : Subject) (a : Action) (wa wm : ℤ),
      (push s a wa wm).id = s.id ∧ (push s a wa wm).name = s.name) ∧
    (∀ s : Subject, (pop s).id = s.id ∧ (pop s).name = s.name) :=
  ⟨fun s a wa wm => ⟨rfl, rfl⟩, fun s => ⟨pop_id s, pop_name s⟩⟩

/-- Claim C5: counters stay non-negative: `push` with non-negative weights
preserves non-negativity, `pop` clamps at zero, the weights the screen itself passes are
all non-negative, and hence no sequence of `push`/`pop` calls with
non-negative weights starting from non-negative counters ever produces a
negative counter. -/
theorem counters_nonneg_invariant :
    (∀ (s : Subject) (a : Action) (wa wm : ℤ),
      0 ≤ s.attended → 0 ≤ s.missed → 0 ≤ wa → 0 ≤ wm →
      0 ≤ (push s a wa wm).attended ∧ 0 ≤ (push s a wa wm).missed) ∧
    (∀ s : Subject, 0 ≤ s.attended → 0 ≤ s.missed →
      0 ≤ (pop s).attended ∧ 0 ≤ (pop s).missed) ∧
    (∀ a : Action, 0 ≤ attendedWeight a ∧ 0 ≤ missedWeight a) ∧
    (∀ (ops : List KernelOp) (s : Subject),
      (∀ op ∈ ops, op.nonnegWeights = true) →
      0 ≤ s.attended → 0 ≤ s.missed →
      0 ≤ (applyKernelOps s ops).attended ∧
        0 ≤ (applyKernelOps s ops).missed) := by
  have hpush : ∀ (s : Subject) (a : Action) (wa wm : ℤ),
      0 ≤ s.attended → 0 ≤ s.missed → 0 ≤ wa → 0 ≤ wm →
      0 ≤ (push s a wa wm).attended ∧ 0 ≤ (push s a wa wm).missed := by
    intro s a wa wm ha hm hwa hwm
    simp only [push]
    constructor <;> dsimp <;> omega
  have hpop : ∀ s : Subject, 0 ≤ s.attended → 0 ≤ s.missed →
      0 ≤ (pop s).attended ∧ 0 ≤ (pop s).missed :=
    fun s ha hm => ⟨pop_attended_nonneg s ha, pop_missed_nonneg s hm⟩
  refine ⟨hpush, hpop, ?_, ?_⟩
  · intro a
    cases a <;> simp [attendedWeight, missedWeight]
  · intro ops
    induction ops with
    | nil => intro s _ ha hm; exact ⟨ha, hm⟩
    | cons op ops ih =>
      intro s hops ha hm
      have hop : op.nonnegWeights = true := hops op (by simp)
      have hrest : ∀ o ∈ ops, o.nonnegWeights = true :=
        fun o ho => hops o (by simp [ho])
      have hstep : 0 ≤ (applyKernelOp s op).attended ∧
          0 ≤ (applyKernelOp s op).missed := by
        cases op with
        | doPush a wa wm =>
          simp only [KernelOp.nonnegWeights, Bool.and_eq_true,
            decide_eq_true_eq] at hop
          exact hpush s a wa wm ha hm hop.1 hop.2
        | doPop => exact hpop s ha hm
      exact ih (applyKernelOp s op) hrest hstep.1 hstep.2

/-- Witness for C5: a concrete op sequence from a concrete subject. -/
theorem counters_nonneg_invariant_witness :
    0 ≤ (applyKernelOps ⟨"s", "n", 0, 0, []⟩
        [KernelOp.doPush Action.ATTENDED 1 0, KernelOp.doPop,
          KernelOp.doPop]).attended ∧
    0 ≤ (applyKernelOps ⟨"s", "n", 0, 0, []⟩
        [KernelOp.doPush Action.ATTENDED 1 0, KernelOp.doPop,
          KernelOp.doPop]).missed :=
  counters_nonneg_invariant.2.2.2
    [KernelOp.doPush Action.ATTENDED 1 0, KernelOp.doPop, KernelOp.doPop]
    ⟨"s", "n", 0, 0, []⟩ (by decide) (by norm_num) (by norm_num)

/-- Claim C4: `percent` is round-half-up of `100 * attended / total` when
`total > 0`, and exactly 100 when `total = 0`; in particular the fresh
ledger reads 100. -/
theorem percent_round_half_up (s : Subject) :
    (s.attended + s.missed = 0 → percent s = 100) ∧
    (s.attended + s.missed ≠ 0 →
      percent s =
        ⌊(100 * (s.attended : ℚ)) / ((s.attended + s.missed : ℤ) : ℚ)
          + 1 / 2⌋) ∧
    percent ⟨"s", "n", 0, 0, []⟩ = 100 := by
  refine ⟨fun h => by simp [percent, h], fun h => ?_, by simp [percent]⟩
  simp only [percent, if_neg h, round_eq]
  congr 1
  ring

/-- Witness for C4: the theorem applied at a concrete in-use ledger,
with the floor evaluated. -/
theorem percent_round_half_up_witness :
    percent ⟨"s", "n", 1, 2, []⟩ = 33 := by
  have h := (percent_round_half_up ⟨"s", "n", 1, 2, []⟩).2.1 (by norm_num)
  rw [h]
  rw [show ((1 : ℤ) + 2 : ℤ) = 3 by norm_num]
  norm_num [Int.floor_eq_iff]

/-! ## The canSkip loop: bridge, characterization, totality -/

lemma canSkipCond_iff (a m t : ℤ) (ha : 0 ≤ a) (hm : 0 ≤ m) :
    ((a : ℚ) / ((a + m + 1 : ℤ) : ℚ)) * 100 < (t : ℚ) ↔
      100 * a < t * (a + m + 1) := by
  have hT : (0 : ℚ) < ((a + m + 1 : ℤ) : ℚ) := by
    exact_mod_cast (by omega : (0 : ℤ) < a + m + 1)
  rw [div_mul_eq_mul_div, div_lt_iff₀ hT]
  constructor
  · intro h
    have h2 : ((100 * a : ℤ) : ℚ) < ((t * (a + m + 1) : ℤ) : ℚ) := by
      push_cast at h ⊢
      linarith
    exact_mod_cast h2
  · intro h
    have h2 : ((100 * a : ℤ) : ℚ) < ((t * (a + m + 1) : ℤ) : ℚ) := by
      exact_mod_cast h
    push_cast at h2 ⊢
    linarith

lemma canSkipLoop_break (a t : ℤ) (ha : 0 ≤ a) (ht : 1 ≤ t) :
    ∀ (fuel : ℕ) (m : ℤ), 0 ≤ m → 1 ≤ fuel →
      100 * a < t * (a + m + fuel) →
      ∃ mf, canSkipLoop a t fuel m = some mf ∧ m ≤ mf ∧
        100 * a < t * (a + mf + 1) ∧
        (m < mf → t * (a + mf) ≤ 100 * a) := by
  intro fuel
  induction fuel with
  | zero => intro m _ hfuel _; omega
  | succ f ih =>
    intro m hm _ hbound
    simp only [canSkipLoop]
    by_cases hc : 100 * a < t * (a + m + 1)
    · rw [if_pos ((canSkipCond_iff a m t ha hm).mpr hc)]
      exact ⟨m, rfl, le_refl m, hc, fun hlt => absurd hlt (lt_irrefl m)⟩
    · rw [if_neg (fun hq => hc ((canSkipCond_iff a m t ha hm).mp hq))]
      have hge : t * (a + m + 1) ≤ 100 * a := not_lt.mp hc
      cases f with
      | zero =>
        exfalso
        push_cast at hbound
        ring_nf at hge hbound
        linarith
      | succ f2 =>
        have hbound2 : 100 * a < t * (a + (m + 1) + (f2 + 1 : ℕ)) := by
          push_cast at hbound ⊢
          ring_nf at hbound ⊢
          linarith
        obtain ⟨mf, heq, hle, hbrk, hlast⟩ :=
          ih (m + 1) (by omega) (by omega) hbound2
        refine ⟨mf, heq, by omega, hbrk, ?_⟩
        intro _
        rcases eq_or_lt_of_le hle with he | hlt
        · rw [← he]
          ring_nf at hge ⊢
          linarith
        · exact hlast hlt

lemma canSkipLoop_total (a t m : ℤ) (ha : 0 ≤ a) (hm : 0 ≤ m) (ht : 1 ≤ t) :
    ∃ mf, canSkipLoop a t (100 * a.toNat + 2) m = some mf ∧ m ≤ mf ∧
      100 * a < t * (a + mf + 1) ∧
      (m < mf → t * (a + mf) ≤ 100 * a) := by
  apply canSkipLoop_break a t ha ht (100 * a.toNat + 2) m hm (by omega)
  have htn : ((100 * a.toNat + 2 : ℕ) : ℤ) = 100 * a + 2 := by
    push_cast
    rw [Int.toNat_of_nonneg ha]
  rw [htn]
  have h1 : a + m + (100 * a + 2) ≤ t * (a + m + (100 * a + 2)) :=
    le_mul_of_one_le_left (by omega) ht
  linarith

lemma canSkip_spec (s : Subject) (t : ℤ) (ha : 0 ≤ s.attended)
    (hm : 0 ≤ s.missed) (ht : 1 ≤ t) :
    ∃ k : ℤ, canSkip s t = some k ∧ 0 ≤ k ∧
      100 * s.attended < t * (s.attended + s.missed + k + 1) ∧
      (0 < k → t * (s.attended + s.missed + k) ≤ 100 * s.attended) := by
  obtain ⟨mf, heq, hle, hbrk, hlast⟩ :=
    canSkipLoop_total s.attended t s.missed ha hm ht
  refine ⟨mf - s.missed, by simp [canSkip, heq], by omega, ?_, ?_⟩
  · rw [show s.attended + s.missed + (mf - s.missed) + 1
        = s.attended + mf + 1 by ring]
    exact hbrk
  · intro hk
    rw [show s.attended + s.missed + (mf - s.missed) = s.attended + mf by ring]
    exact hlast (by omega)

lemma canSkipLoop_step_true (a t m : ℤ) (fuel : ℕ) (ha : 0 ≤ a)
    (hm : 0 ≤ m) (h : 100 * a < t * (a + m + 1)) :
    canSkipLoop a t (fuel + 1) m = some m := by
  simp only [canSkipLoop]
  rw [if_pos ((canSkipCond_iff a m t ha hm).mpr h)]

lemma canSkipLoop_step_false (a t m : ℤ) (fuel : ℕ) (ha : 0 ≤ a)
    (hm : 0 ≤ m) (h : t * (a + m + 1) ≤ 100 * a) :
    canSkipLoop a t (fuel + 1) m = canSkipLoop a t fuel (m + 1) := by
  simp only [canSkipLoop]
  rw [if_neg (fun hq => absurd ((canSkipCond_iff a m t ha hm).mp hq)
    (not_lt.mpr h))]

lemma getBunkable_floor_bounds (a t : ℤ) (ha : 0 ≤ a) (ht : 1 ≤ t) :
    t * ⌊((a : ℚ) * 100) / (t : ℚ)⌋ ≤ 100 * a ∧
      100 * a < t * (⌊((a : ℚ) * 100) / (t : ℚ)⌋ + 1) := by
  set q := ⌊((a : ℚ) * 100) / (t : ℚ)⌋ with hq
  have htq : (0 : ℚ) < (t : ℚ) := by exact_mod_cast (by omega : (0 : ℤ) < t)
  constructor
  · have h1 : (q : ℚ) ≤ ((a : ℚ) * 100) / (t : ℚ) := Int.floor_le _
    rw [le_div_iff₀ htq] at h1
    have h3 : ((t * q : ℤ) : ℚ) ≤ ((100 * a : ℤ) : ℚ) := by
      push_cast
      linarith
    exact_mod_cast h3
  · have h1 : ((a : ℚ) * 100) / (t : ℚ) < q + 1 := Int.lt_floor_add_one _
    rw [div_lt_iff₀ htq] at h1
    have h3 : ((100 * a : ℤ) : ℚ) < ((t * (q + 1) : ℤ) : ℚ) := by
      push_cast
      linarith
    exact_mod_cast h3

lemma getBunkable_eq_floor (a m t : ℤ) (h : a + m ≠ 0) :
    getBunkable a m t = max 0 (⌊((a : ℚ) * 100) / (t : ℚ)⌋ - (a + m)) := by
  simp only [getBunkable, if_neg h]
  rw [Int.floor_sub_int]

/-- Claim C9: the `while (true)` loop of `canSkip` terminates for every
non-negative ledger when the target is strictly positive (within the
`100 * attended + 2` fuel budget), and never terminates (returns `none` at
every fuel) when the target is ≤ 0 and `attended > 0`. -/
theorem canSkip_loop_termination :
    (∀ (s : Subject) (min : ℤ), 0 ≤ s.attended → 0 ≤ s.missed → 0 < min →
      (canSkip s min).isSome = true) ∧
    (∀ (a min : ℤ) (fuel : ℕ) (m : ℤ), 0 < a → min ≤ 0 → 0 ≤ m →
      canSkipLoop a min fuel m = none) := by
  constructor
  · intro s min ha hm hmin
    obtain ⟨mf, heq, -, -, -⟩ :=
      canSkipLoop_total s.attended min s.missed ha hm (by omega)
    simp [canSkip, heq]
  · intro a min fuel
    induction fuel with
    | zero => intro m _ _ _; rfl
    | succ f ih =>
      intro m ha hmin hm
      simp only [canSkipLoop]
      have hT : (0 : ℚ) < ((a + m + 1 : ℤ) : ℚ) := by
        exact_mod_cast (by omega : (0 : ℤ) < a + m + 1)
      have hA : (0 : ℚ) ≤ (a : ℚ) := by
        exact_mod_cast (by omega : (0 : ℤ) ≤ a)
      have hnn : (0 : ℚ) ≤ ((a : ℚ) / ((a + m + 1 : ℤ) : ℚ)) * 100 := by
        positivity
      have hmin2 : ((min : ℤ) : ℚ) ≤ 0 := by exact_mod_cast hmin
      rw [if_neg (by linarith)]
      exact ih (m + 1) ha hmin (by omega)

/-- Witness for C9: the loop finishes at a concrete positive target and
runs out of any fuel at a concrete non-positive target. -/
theorem canSkip_loop_termination_witness :
    (canSkip ⟨"s", "n", 3, 0, []⟩ 75).isSome = true ∧
      canSkipLoop 3 0 5 0 = none :=
  ⟨canSkip_loop_termination.1 ⟨"s", "n", 3, 0, []⟩ 75 (by norm_num)
      (by norm_num) (by norm_num),
    canSkip_loop_termination.2 3 0 5 0 (by norm_num) (by norm_num)
      (by norm_num)⟩

/-- Claim C1 (corrected): counterexample to the claim as stated — at the
empty ledger the iterative `canSkip` returns 0 while the closed-form
`getBunkable` returns its fixed constant 10. -/
theorem canSkip_getBunkable_disagree_empty :
    canSkip ⟨"s", "n", 0, 0, []⟩ 75 ≠ some (getBunkable 0 0 75) := by
  have h1 : canSkip ⟨"s", "n", 0, 0, []⟩ 75 = some 0 := by
    simp [canSkip, canSkipLoop]
  have h2 : getBunkable 0 0 75 = 10 := by simp [getBunkable]
  rw [h1, h2]
  decide

/-- Claim C1 (amended): the iterative `canSkip` and the closed-form
`getBunkable` agree for every ledger with non-negative counters and
`attended + missed > 0`, and every integer target in (0, 100]. -/
theorem canSkip_eq_getBunkable_of_total_pos (s : Subject) (t : ℤ)
    (ht0 : 0 < t) (ht100 : t ≤ 100) (ha : 0 ≤ s.attended)
    (hm : 0 ≤ s.missed) (htot : s.attended + s.missed ≠ 0) :
    canSkip s t = some (getBunkable s.attended s.missed t) := by
  obtain ⟨k, hsk, hk0, hbrk, hlast⟩ := canSkip_spec s t ha hm (by omega)
  rw [hsk, getBunkable_eq_floor s.attended s.missed t htot]
  congr 1
  set q := ⌊((s.attended : ℚ) * 100) / (t : ℚ)⌋ with hq
  obtain ⟨hql, hqu⟩ := getBunkable_floor_bounds s.attended t ha (by omega)
  have h1 : q ≤ s.attended + s.missed + k := by
    by_contra hcon
    push_neg at hcon
    have hstep : t * (s.attended + s.missed + k + 1) ≤ t * q :=
      mul_le_mul_of_nonneg_left (by omega) (by omega)
    linarith
  have h2 : 0 < k → s.attended + s.missed + k ≤ q := by
    intro hk
    by_contra hcon
    push_neg at hcon
    have hstep : t * (q + 1) ≤ t * (s.attended + s.missed + k) :=
      mul_le_mul_of_nonneg_left (by omega) (by omega)
    have := hlast hk
    linarith
  rcases lt_or_le 0 k with hk | hk
  · rw [max_eq_right
      (by have := h2 hk; omega : (0 : ℤ) ≤ q - (s.attended + s.missed))]
    omega
  · have hk00 : k = 0 := by omega
    rw [hk00, max_eq_left (by omega : q - (s.attended + s.missed) ≤ (0 : ℤ))]

/-- Witness for the amended C1 theorem at the sweep point of the spec
`(attended, missed, target) = (30, 5, 75)`, where both algorithms give 5. -/
theorem canSkip_eq_getBunkable_witness :
    canSkip ⟨"s", "n", 30, 5, []⟩ 75 = some 5 := by
  have h := canSkip_eq_getBunkable_of_total_pos ⟨"s", "n", 30, 5, []⟩ 75
    (by norm_num) (by norm_num) (by norm_num) (by norm_num) (by norm_num)
  rw [h, getBunkable_eq_floor 30 5 75 (by norm_num)]
  rw [show ⌊((30 : ℤ) : ℚ) * 100 / ((75 : ℤ) : ℚ)⌋ = 40 by
    rw [Int.floor_eq_iff]
    norm_num]
  norm_num

/-- Claim C2 (corrected): counterexample to the claim as stated. At the
ledger (attended 0, missed 1) with target 75 the allowance is 0 yet the
percent after 0 further misses is 0 < 75 (the first conjunct of the claim
fails without a precondition); at (attended 149, missed 0) with target 75
the allowance is 49 yet after 49 + 1 further misses the rounded percent is
still 75, not below it (tightness fails for the rounded percent). -/
theorem canSkip_post_counterexample :
    (canSkip ⟨"s", "n", 0, 1, []⟩ 75 = some 0 ∧
      percent (applyMissedN 0 ⟨"s", "n", 0, 1, []⟩) < 75) ∧
    (canSkip ⟨"s", "n", 149, 0, []⟩ 75 = some 49 ∧
      75 ≤ percent (applyMissedN 50 ⟨"s", "n", 149, 0, []⟩)) := by
  refine ⟨⟨?_, ?_⟩, ⟨?_, ?_⟩⟩
  · simp [canSkip, canSkipLoop]
  · norm_num [applyMissedN, percent, round_eq, Int.floor_lt]
  · obtain ⟨k, hsk, hk0, hbrk, hlast⟩ :=
      canSkip_spec ⟨"s", "n", 149, 0, []⟩ 75 (by norm_num) (by norm_num)
        (by norm_num)
    simp only at hbrk hlast
    have hk49 : k = 49 := by
      rcases eq_or_lt_of_le hk0 with h | h
      · omega
      · have := hlast h
        omega
    rw [hsk, hk49]
  · have hfa := applyMissedN_attended 50 ⟨"s", "n", 149, 0, []⟩
    have hfm := applyMissedN_missed 50 ⟨"s", "n", 149, 0, []⟩
    simp only [percent, hfa, hfm]
    norm_num [round_eq]

/-- Claim C2 (amended): if the exact attendance ratio of the ledger is already at
or above the target (`t * total ≤ 100 * attended`), then after
`canSkip(L, t)` further MISSED actions the rounded percent is still ≥ t;
and after one more MISSED action the exact running ratio
`(attended / total) * 100` — though not necessarily the rounded percent —
is strictly below t. -/
theorem canSkip_post_spec (s : Subject) (t : ℤ) (ht0 : 0 < t)
    (ht100 : t ≤ 100) (ha : 0 ≤ s.attended) (hm : 0 ≤ s.missed)
    (hcur : t * (s.attended + s.missed) ≤ 100 * s.attended)
    (k : ℕ) (hk : canSkip s t = some (k : ℤ)) :
    t ≤ percent (applyMissedN k s) ∧
      exactRatio (applyMissedN (k + 1) s) < (t : ℚ) := by
  obtain ⟨k0, hsk, hk00, hbrk, hlast⟩ := canSkip_spec s t ha hm (by omega)
  rw [hsk] at hk
  injection hk with hkk
  subst hkk
  constructor
  · have hfa := applyMissedN_attended k s
    have hfm := applyMissedN_missed k s
    simp only [percent, hfa, hfm]
    by_cases htot : s.attended + (s.missed + (k : ℤ)) = 0
    · rw [if_pos htot]
      omega
    · rw [if_neg htot]
      have htpos : (0 : ℤ) < s.attended + (s.missed + (k : ℤ)) := by omega
      have hratio :
          t * (s.attended + (s.missed + (k : ℤ))) ≤ 100 * s.attended := by
        rcases Nat.eq_zero_or_pos k with hkz | hkpos
        · subst hkz
          push_cast
          ring_nf
          ring_nf at hcur
          linarith
        · have hl := hlast (by exact_mod_cast hkpos)
          ring_nf at hl ⊢
          linarith
      have hTq :
          (0 : ℚ) < ((s.attended + (s.missed + (k : ℤ)) : ℤ) : ℚ) := by
        exact_mod_cast htpos
      have hx : (t : ℚ) ≤
          ((s.attended : ℚ) /
            ((s.attended + (s.missed + (k : ℤ)) : ℤ) : ℚ)) * 100 := by
        rw [div_mul_eq_mul_div, le_div_iff₀ hTq]
        have h3 : ((t * (s.attended + (s.missed + (k : ℤ))) : ℤ) : ℚ) ≤
            ((100 * s.attended : ℤ) : ℚ) := by exact_mod_cast hratio
        push_cast at h3 ⊢
        linarith
      rw [round_eq]
      refine le_trans (Int.le_floor.mpr hx) (Int.floor_mono (by linarith))
  · have hfa := applyMissedN_attended (k + 1) s
    have hfm := applyMissedN_missed (k + 1) s
    rw [exactRatio, hfa, hfm]
    have hT2 : (0 : ℤ) < s.attended + (s.missed + ((k + 1 : ℕ) : ℤ)) := by
      push_cast
      omega
    have hT2q :
        (0 : ℚ) < ((s.attended + (s.missed + ((k + 1 : ℕ) : ℤ)) : ℤ) : ℚ) := by
      exact_mod_cast hT2
    rw [div_mul_eq_mul_div, div_lt_iff₀ hT2q]
    have h3 : ((100 * s.attended : ℤ) : ℚ) <
        ((t * (s.attended + s.missed + (k : ℤ) + 1) : ℤ) : ℚ) := by
      exact_mod_cast hbrk
    push_cast at h3 ⊢
    linarith

/-- Witness for the amended C2 theorem at the ledger (attended 3, missed 1)
and target 50, whose allowance is 2. -/
theorem canSkip_post_spec_witness :
    50 ≤ percent (applyMissedN 2 ⟨"s", "n", 3, 1, []⟩) ∧
      exactRatio (applyMissedN (2 + 1) ⟨"s", "n", 3, 1, []⟩) < ((50 : ℤ) : ℚ) :=
  canSkip_post_spec ⟨"s", "n", 3, 1, []⟩ 50 (by norm_num) (by norm_num)
    (by norm_num) (by norm_num) (by norm_num) 2
    (by
      have h1 : canSkipLoop 3 50 302 1 = some 3 := by
        rw [show (302 : ℕ) = 301 + 1 from rfl,
          canSkipLoop_step_false 3 50 1 301 (by norm_num) (by norm_num)
            (by norm_num)]
        norm_num
        rw [show (301 : ℕ) = 300 + 1 from rfl,
          canSkipLoop_step_false 3 50 2 300 (by norm_num) (by norm_num)
            (by norm_num)]
        norm_num
        rw [show (300 : ℕ) = 299 + 1 from rfl,
          canSkipLoop_step_true 3 50 3 299 (by norm_num) (by norm_num)
            (by norm_num)]
      simp [canSkip, h1])

end CollegeCompanion
